import Mathlib

/-!
Verification development for the options-dashboard analytics core
(`src/stock_options_dashboard.py`, `src/demo_dashboard.py`,
`src/options_dashboard.py`).

Numbers are modelled as exact rationals.  IEEE-754 non-finite values
(NaN and the infinities, which NumPy produces instead of raising for
domain errors such as `np.log` of a non-positive number or division by
zero) are collapsed into a single absorbing element `PF.nan`; every
arithmetic operation propagates it.  This is exact on every execution
path in which no infinity arises, which covers all inputs exercised by
the theorems below.  The transcendental primitives (`norm.cdf`,
`norm.pdf`, `np.sqrt`, `np.exp`, `np.log` on positive arguments) are
kept abstract as a parameter structure `Prims`; theorems that need
analytic facts about them (for example that a CDF lies in `[0, 1]`)
take those facts as explicit hypotheses.
-/

namespace OptionsDash

/-- Model of a Python/NumPy float value: either a finite rational or the
absorbing `nan` standing for any non-finite value. -/
inductive PF where
  | fin (q : ℚ) : PF
  | nan : PF
deriving DecidableEq

namespace PF

/-- Float addition: finite on finite operands, absorbing otherwise. -/
def add : PF → PF → PF
  | fin a, fin b => fin (a + b)
  | _, _ => nan

/-- Float subtraction. -/
def sub : PF → PF → PF
  | fin a, fin b => fin (a - b)
  | _, _ => nan

/-- Float multiplication. -/
def mul : PF → PF → PF
  | fin a, fin b => fin (a * b)
  | _, _ => nan

/-- Float negation. -/
def neg : PF → PF
  | fin a => fin (-a)
  | nan => nan

/-- Float division; division by zero produces a non-finite value in
NumPy (`inf` or `nan`), modelled by `nan`. -/
def div : PF → PF → PF
  | fin a, fin b => if b = 0 then nan else fin (a / b)
  | _, _ => nan

/-- A `PF` value is a finite rational within the closed interval. -/
def inIcc (x : PF) (a b : ℚ) : Prop := ∃ q : ℚ, x = fin q ∧ a ≤ q ∧ q ≤ b

/-- A `PF` value is a finite non-negative rational. -/
def isNonneg (x : PF) : Prop := ∃ q : ℚ, x = fin q ∧ 0 ≤ q

@[simp] theorem add_fin (a b : ℚ) : add (fin a) (fin b) = fin (a + b) := rfl

@[simp] theorem sub_fin (a b : ℚ) : sub (fin a) (fin b) = fin (a - b) := rfl

@[simp] theorem mul_fin (a b : ℚ) : mul (fin a) (fin b) = fin (a * b) := rfl

@[simp] theorem neg_fin (a : ℚ) : neg (fin a) = fin (-a) := rfl

theorem div_fin (a b : ℚ) (h : b ≠ 0) : div (fin a) (fin b) = fin (a / b) := by
  simp [div, h]

theorem neg_mul_left (a b : PF) : mul (neg a) b = neg (mul a b) := by
  cases a <;> cases b <;> simp [mul, neg]

end PF

/-- Abstract numerical primitives backing `scipy.stats.norm` and NumPy:
`cdf`/`pdf` are the standard normal CDF and density, `sqrt`/`log` are
the real square root and logarithm on their domains, `exp` the real
exponential.  They are abstract approximations on ℚ; analytic facts
about them enter theorems as hypotheses. -/
structure Prims where
  cdf : ℚ → ℚ
  pdf : ℚ → ℚ
  sqrt : ℚ → ℚ
  exp : ℚ → ℚ
  log : ℚ → ℚ

/-- Lift of `scipy.stats.norm.cdf` to float values (NaN-propagating). -/
def pfCdf (p : Prims) : PF → PF
  | PF.fin x => PF.fin (p.cdf x)
  | PF.nan => PF.nan

/-- Lift of `scipy.stats.norm.pdf` to float values (NaN-propagating). -/
def pfPdf (p : Prims) : PF → PF
  | PF.fin x => PF.fin (p.pdf x)
  | PF.nan => PF.nan

/-- Lift of `np.exp` to float values (NaN-propagating). -/
def pfExp (p : Prims) : PF → PF
  | PF.fin x => PF.fin (p.exp x)
  | PF.nan => PF.nan

/-- Lift of `np.sqrt`: NumPy yields `nan` for a negative argument
(without raising). -/
def pfSqrt (p : Prims) : PF → PF
  | PF.fin x => if x < 0 then PF.nan else PF.fin (p.sqrt x)
  | PF.nan => PF.nan

/-- Lift of `np.log`: NumPy yields `nan` for a negative argument and
`-inf` for zero (without raising); both non-finite outcomes are
collapsed into the absorbing `nan`.  This is exact for the NaN case
(negative argument) but an overapproximation for a zero argument, where
the real program's `-inf` reaches `scipy` functions that are finite at
`-inf` (`cdf`/`pdf` return 0 there); no theorem in this file asserts a
Greeks value on a path through `np.log(0)`. -/
def pfLog (p : Prims) : PF → PF
  | PF.fin x => if x ≤ 0 then PF.nan else PF.fin (p.log x)
  | PF.nan => PF.nan

@[simp] theorem pfCdf_fin (p : Prims) (x : ℚ) : pfCdf p (PF.fin x) = PF.fin (p.cdf x) := rfl

@[simp] theorem pfPdf_fin (p : Prims) (x : ℚ) : pfPdf p (PF.fin x) = PF.fin (p.pdf x) := rfl

@[simp] theorem pfExp_fin (p : Prims) (x : ℚ) : pfExp p (PF.fin x) = PF.fin (p.exp x) := rfl

theorem pfSqrt_fin (p : Prims) (x : ℚ) (h : ¬ x < 0) :
    pfSqrt p (PF.fin x) = PF.fin (p.sqrt x) := by simp [pfSqrt, h]

theorem pfLog_fin (p : Prims) (x : ℚ) (h : ¬ x ≤ 0) :
    pfLog p (PF.fin x) = PF.fin (p.log x) := by simp [pfLog, h]

/-- Round-half-to-even to an integer, the rounding mode of Python's
built-in `round`. -/
def roundHalfEven (x : ℚ) : ℤ :=
  if x - (⌊x⌋ : ℚ) < 1/2 then ⌊x⌋
  else if 1/2 < x - (⌊x⌋ : ℚ) then ⌊x⌋ + 1
  else if Even ⌊x⌋ then ⌊x⌋ else ⌊x⌋ + 1

/-- Python's `round(x, 4)`: round-half-to-even at 4 decimal digits. -/
def round4 (x : ℚ) : ℚ := (roundHalfEven (x * 10000) : ℚ) / 10000

/-- Lift of `round(·, 4)` to float values; `round(nan, 4)` is `nan` in
Python. -/
def pfRound4 : PF → PF
  | PF.fin x => PF.fin (round4 x)
  | PF.nan => PF.nan

@[simp] theorem pfRound4_fin (x : ℚ) : pfRound4 (PF.fin x) = PF.fin (round4 x) := rfl

/-- The Greeks dictionary `{'delta': …, 'gamma': …, 'theta': …, 'vega': …}`. -/
structure Greeks where
  delta : PF
  gamma : PF
  theta : PF
  vega : PF
deriving DecidableEq

/-- The all-zero Greeks vector `{'delta': 0, 'gamma': 0, 'theta': 0, 'vega': 0}`. -/
def zeroGreeks : Greeks := ⟨PF.fin 0, PF.fin 0, PF.fin 0, PF.fin 0⟩

/-- The all-NaN Greeks vector (what NaN propagation yields). -/
def nanGreeks : Greeks := ⟨PF.nan, PF.nan, PF.nan, PF.nan⟩

/-- Embedding of `OptionsAnalyzer.calculate_greeks` from
`src/stock_options_dashboard.py` lines 83–111.  The guard returns the
zero dictionary for `T <= 0 or sigma <= 0`; otherwise `d1`, `d2`, the
per-kind `delta`/`theta`, and `gamma`/`vega` are computed exactly as in
the source and rounded to 4 digits.  `option_type` is the Python string
argument: any string other than `"call"` takes the put branch. -/
def calculate_greeks (p : Prims) (S K T r sigma : ℚ) (option_type : String) : Greeks :=
  if T ≤ 0 ∨ sigma ≤ 0 then zeroGreeks
  else
    let d1 := PF.div
      (PF.add (pfLog p (PF.div (PF.fin S) (PF.fin K)))
        (PF.mul (PF.add (PF.fin r) (PF.mul (PF.fin (1/2)) (PF.mul (PF.fin sigma) (PF.fin sigma))))
          (PF.fin T)))
      (PF.mul (PF.fin sigma) (pfSqrt p (PF.fin T)))
    let d2 := PF.sub d1 (PF.mul (PF.fin sigma) (pfSqrt p (PF.fin T)))
    let delta := if option_type = ("call") then pfCdf p d1
      else PF.sub (pfCdf p d1) (PF.fin 1)
    let theta := if option_type = ("call") then
        PF.div
          (PF.sub
            (PF.div (PF.neg (PF.mul (PF.mul (PF.fin S) (pfPdf p d1)) (PF.fin sigma)))
              (PF.mul (PF.fin 2) (pfSqrt p (PF.fin T))))
            (PF.mul (PF.mul (PF.mul (PF.fin r) (PF.fin K))
                (pfExp p (PF.neg (PF.mul (PF.fin r) (PF.fin T)))))
              (pfCdf p d2)))
          (PF.fin 365)
      else
        PF.div
          (PF.add
            (PF.div (PF.neg (PF.mul (PF.mul (PF.fin S) (pfPdf p d1)) (PF.fin sigma)))
              (PF.mul (PF.fin 2) (pfSqrt p (PF.fin T))))
            (PF.mul (PF.mul (PF.mul (PF.fin r) (PF.fin K))
                (pfExp p (PF.neg (PF.mul (PF.fin r) (PF.fin T)))))
              (pfCdf p (PF.neg d2))))
          (PF.fin 365)
    let gamma := PF.div (pfPdf p d1)
      (PF.mul (PF.mul (PF.fin S) (PF.fin sigma)) (pfSqrt p (PF.fin T)))
    let vega := PF.div (PF.mul (PF.mul (PF.fin S) (pfPdf p d1)) (pfSqrt p (PF.fin T)))
      (PF.fin 100)
    Greeks.mk (pfRound4 delta) (pfRound4 gamma) (pfRound4 theta) (pfRound4 vega)

/-- Embedding of `OptionsAnalyzer.calculate_greeks` from
`src/demo_dashboard.py` lines 67–94; the source text is identical to
the `stock_options_dashboard.py` variant up to whitespace. -/
def calculate_greeks_demo (p : Prims) (S K T r sigma : ℚ) (option_type : String) : Greeks :=
  if T ≤ 0 ∨ sigma ≤ 0 then zeroGreeks
  else
    let d1 := PF.div
      (PF.add (pfLog p (PF.div (PF.fin S) (PF.fin K)))
        (PF.mul (PF.add (PF.fin r) (PF.mul (PF.fin (1/2)) (PF.mul (PF.fin sigma) (PF.fin sigma))))
          (PF.fin T)))
      (PF.mul (PF.fin sigma) (pfSqrt p (PF.fin T)))
    let d2 := PF.sub d1 (PF.mul (PF.fin sigma) (pfSqrt p (PF.fin T)))
    let delta := if option_type = ("call") then pfCdf p d1
      else PF.sub (pfCdf p d1) (PF.fin 1)
    let theta := if option_type = ("call") then
        PF.div
          (PF.sub
            (PF.div (PF.neg (PF.mul (PF.mul (PF.fin S) (pfPdf p d1)) (PF.fin sigma)))
              (PF.mul (PF.fin 2) (pfSqrt p (PF.fin T))))
            (PF.mul (PF.mul (PF.mul (PF.fin r) (PF.fin K))
                (pfExp p (PF.neg (PF.mul (PF.fin r) (PF.fin T)))))
              (pfCdf p d2)))
          (PF.fin 365)
      else
        PF.div
          (PF.add
            (PF.div (PF.neg (PF.mul (PF.mul (PF.fin S) (pfPdf p d1)) (PF.fin sigma)))
              (PF.mul (PF.fin 2) (pfSqrt p (PF.fin T))))
            (PF.mul (PF.mul (PF.mul (PF.fin r) (PF.fin K))
                (pfExp p (PF.neg (PF.mul (PF.fin r) (PF.fin T)))))
              (pfCdf p (PF.neg d2))))
          (PF.fin 365)
    let gamma := PF.div (pfPdf p d1)
      (PF.mul (PF.mul (PF.fin S) (PF.fin sigma)) (pfSqrt p (PF.fin T)))
    let vega := PF.div (PF.mul (PF.mul (PF.fin S) (pfPdf p d1)) (pfSqrt p (PF.fin T)))
      (PF.fin 100)
    Greeks.mk (pfRound4 delta) (pfRound4 gamma) (pfRound4 theta) (pfRound4 vega)

/-- Embedding of `OptionsAnalyzer.calculate_greeks` from
`src/options_dashboard.py` lines 61–89.  The only textual difference
from the other two variants is the placement of the negation in the
theta numerator: `-S*norm.pdf(d1)*sigma/(2*np.sqrt(T))`, that is
`((-S)*pdf(d1))*sigma` rather than `-((S*pdf(d1))*sigma)`. -/
def calculate_greeks_od (p : Prims) (S K T r sigma : ℚ) (option_type : String) : Greeks :=
  if T ≤ 0 ∨ sigma ≤ 0 then zeroGreeks
  else
    let d1 := PF.div
      (PF.add (pfLog p (PF.div (PF.fin S) (PF.fin K)))
        (PF.mul (PF.add (PF.fin r) (PF.mul (PF.fin (1/2)) (PF.mul (PF.fin sigma) (PF.fin sigma))))
          (PF.fin T)))
      (PF.mul (PF.fin sigma) (pfSqrt p (PF.fin T)))
    let d2 := PF.sub d1 (PF.mul (PF.fin sigma) (pfSqrt p (PF.fin T)))
    let delta := if option_type = ("call") then pfCdf p d1
      else PF.sub (pfCdf p d1) (PF.fin 1)
    let theta := if option_type = ("call") then
        PF.div
          (PF.sub
            (PF.div (PF.mul (PF.mul (PF.neg (PF.fin S)) (pfPdf p d1)) (PF.fin sigma))
              (PF.mul (PF.fin 2) (pfSqrt p (PF.fin T))))
            (PF.mul (PF.mul (PF.mul (PF.fin r) (PF.fin K))
                (pfExp p (PF.neg (PF.mul (PF.fin r) (PF.fin T)))))
              (pfCdf p d2)))
          (PF.fin 365)
      else
        PF.div
          (PF.add
            (PF.div (PF.mul (PF.mul (PF.neg (PF.fin S)) (pfPdf p d1)) (PF.fin sigma))
              (PF.mul (PF.fin 2) (pfSqrt p (PF.fin T))))
            (PF.mul (PF.mul (PF.mul (PF.fin r) (PF.fin K))
                (pfExp p (PF.neg (PF.mul (PF.fin r) (PF.fin T)))))
              (pfCdf p (PF.neg d2))))
          (PF.fin 365)
    let gamma := PF.div (pfPdf p d1)
      (PF.mul (PF.mul (PF.fin S) (PF.fin sigma)) (pfSqrt p (PF.fin T)))
    let vega := PF.div (PF.mul (PF.mul (PF.fin S) (pfPdf p d1)) (pfSqrt p (PF.fin T)))
      (PF.fin 100)
    Greeks.mk (pfRound4 delta) (pfRound4 gamma) (pfRound4 theta) (pfRound4 vega)

/-- Concrete instantiation of the abstract primitives, used to evaluate
the embedded code on closed inputs (the theorems that depend on
analytic facts about the primitives state those facts as hypotheses,
which this instantiation satisfies where required). -/
def trivPrims : Prims :=
  { cdf := fun _ => 1/2
    pdf := fun _ => 1
    sqrt := fun x => x
    exp := fun _ => 1
    log := fun _ => 0 }

/-- C1: for every input with `timeToExpiryYears ≤ 0` or `volatility ≤ 0`,
`calculate_greeks` returns the exact all-zero Greeks vector, regardless
of spot, strike, rate, option kind, and the numerical primitives (the
guard fires before any arithmetic, so no error can be raised). -/
theorem greeks_degenerate_zero (p : Prims) (S K T r sigma : ℚ) (option_type : String)
    (h : T ≤ 0 ∨ sigma ≤ 0) :
    calculate_greeks p S K T r sigma option_type = zeroGreeks := by
  simp [calculate_greeks, h]

/-- Witness for C1 at `T = 0` and at `sigma = -1`. -/
theorem greeks_degenerate_zero_witness :
    calculate_greeks trivPrims 100 95 0 (9/200) (3/10) ("call") = zeroGreeks ∧
    calculate_greeks trivPrims 100 95 (1/2) (9/200) (-1) ("put") = zeroGreeks := by
  constructor
  · exact greeks_degenerate_zero trivPrims 100 95 0 (9/200) (3/10) ("call") (Or.inl le_rfl)
  · exact greeks_degenerate_zero trivPrims 100 95 (1/2) (9/200) (-1) ("put")
      (Or.inr (by norm_num))

theorem roundHalfEven_le (x : ℚ) (m : ℤ) (h : x ≤ (m : ℚ)) : roundHalfEven x ≤ m := by
  have hfl : ⌊x⌋ ≤ m := by
    have := Int.floor_le_floor h
    simpa using this
  have hflq : (⌊x⌋ : ℚ) ≤ x := Int.floor_le x
  unfold roundHalfEven
  split_ifs with h1 h2 h3
  · exact hfl
  · have hq : (⌊x⌋ : ℚ) + 1/2 < (m : ℚ) := by linarith
    have : (⌊x⌋ : ℚ) < (m : ℚ) := by linarith
    have : ⌊x⌋ < m := by exact_mod_cast this
    omega
  · exact hfl
  · have heq : x - (⌊x⌋ : ℚ) = 1/2 := le_antisymm (not_lt.mp h2) (not_lt.mp h1)
    have hq : (⌊x⌋ : ℚ) + 1/2 ≤ (m : ℚ) := by linarith
    have : (⌊x⌋ : ℚ) < (m : ℚ) := by linarith
    have : ⌊x⌋ < m := by exact_mod_cast this
    omega

theorem le_roundHalfEven (x : ℚ) (m : ℤ) (h : (m : ℚ) ≤ x) : m ≤ roundHalfEven x := by
  have hfl : m ≤ ⌊x⌋ := Int.le_floor.mpr h
  unfold roundHalfEven
  split_ifs <;> omega

theorem round4_le (x : ℚ) (m : ℤ) (h : x ≤ (m : ℚ)) : round4 x ≤ (m : ℚ) := by
  unfold round4
  have h1 : x * 10000 ≤ ((10000 * m : ℤ) : ℚ) := by push_cast; linarith
  have h2 : roundHalfEven (x * 10000) ≤ 10000 * m := roundHalfEven_le _ _ h1
  rw [div_le_iff₀ (by norm_num : (0:ℚ) < 10000)]
  calc ((roundHalfEven (x * 10000) : ℤ) : ℚ) ≤ ((10000 * m : ℤ) : ℚ) := by exact_mod_cast h2
    _ = (m : ℚ) * 10000 := by push_cast; ring

theorem le_round4 (x : ℚ) (m : ℤ) (h : (m : ℚ) ≤ x) : (m : ℚ) ≤ round4 x := by
  unfold round4
  have h1 : ((10000 * m : ℤ) : ℚ) ≤ x * 10000 := by push_cast; linarith
  have h2 : 10000 * m ≤ roundHalfEven (x * 10000) := le_roundHalfEven _ _ h1
  rw [le_div_iff₀ (by norm_num : (0:ℚ) < 10000)]
  calc (m : ℚ) * 10000 = ((10000 * m : ℤ) : ℚ) := by push_cast; ring
    _ ≤ ((roundHalfEven (x * 10000) : ℤ) : ℚ) := by exact_mod_cast h2

/-- Shape of `calculate_greeks` on the non-degenerate path with valid
inputs: there is a single rational `d` (the value of `d1`) such that the
returned delta, gamma and vega are the 4-digit roundings of
`cdf d` / `cdf d - 1`, `pdf d / (S·sigma·√T)` and `S·pdf d·√T / 100`. -/
theorem calculate_greeks_shape (p : Prims) (S K T r sigma : ℚ) (option_type : String)
    (hS : 0 < S) (hK : 0 < K) (hT : 0 < T) (hsig : 0 < sigma) (hsq : 0 < p.sqrt T) :
    ∃ (d : ℚ),
      (calculate_greeks p S K T r sigma option_type).delta =
        PF.fin (round4 (if option_type = ("call") then p.cdf d else p.cdf d - 1)) ∧
      (calculate_greeks p S K T r sigma option_type).gamma =
        PF.fin (round4 (p.pdf d / (S * sigma * p.sqrt T))) ∧
      (calculate_greeks p S K T r sigma option_type).vega =
        PF.fin (round4 (S * p.pdf d * p.sqrt T / 100)) := by
  have hguard : ¬ (T ≤ 0 ∨ sigma ≤ 0) := by push_neg; exact ⟨hT, hsig⟩
  have hKne : K ≠ 0 := ne_of_gt hK
  have hTlt : ¬ T < 0 := not_lt.mpr (le_of_lt hT)
  have hSK : ¬ S / K ≤ 0 := not_le.mpr (div_pos hS hK)
  have hden1 : sigma * p.sqrt T ≠ 0 := ne_of_gt (mul_pos hsig hsq)
  have hden2 : S * sigma * p.sqrt T ≠ 0 := ne_of_gt (mul_pos (mul_pos hS hsig) hsq)
  have h100 : (100 : ℚ) ≠ 0 := by norm_num
  refine ⟨(p.log (S / K) + (r + 1/2 * (sigma * sigma)) * T) / (sigma * p.sqrt T), ?_, ?_, ?_⟩
  · rw [calculate_greeks, if_neg hguard]
    simp only [pfSqrt_fin p T hTlt, PF.mul_fin, PF.div_fin S K hKne,
      pfLog_fin p (S / K) hSK, PF.add_fin, PF.div_fin _ _ hden1, pfCdf_fin, pfPdf_fin,
      PF.sub_fin, PF.div_fin _ _ hden2, PF.div_fin _ _ h100, pfRound4_fin]
    split <;> rfl
  · rw [calculate_greeks, if_neg hguard]
    simp only [pfSqrt_fin p T hTlt, PF.mul_fin, PF.div_fin S K hKne,
      pfLog_fin p (S / K) hSK, PF.add_fin, PF.div_fin _ _ hden1, pfCdf_fin, pfPdf_fin,
      PF.sub_fin, PF.div_fin _ _ hden2, PF.div_fin _ _ h100, pfRound4_fin]
  · rw [calculate_greeks, if_neg hguard]
    simp only [pfSqrt_fin p T hTlt, PF.mul_fin, PF.div_fin S K hKne,
      pfLog_fin p (S / K) hSK, PF.add_fin, PF.div_fin _ _ hden1, pfCdf_fin, pfPdf_fin,
      PF.sub_fin, PF.div_fin _ _ hden2, PF.div_fin _ _ h100, pfRound4_fin]

/-- C2: for every valid input (`spot > 0`, `strike > 0`, `T > 0`,
`sigma > 0`) and primitives satisfying the analytic facts
`cdf ∈ [0,1]`, `pdf ≥ 0`, `sqrt > 0` on positives, `calculate_greeks`
returns (after the final 4-digit rounding) a call delta in `[0, 1]`, a
put delta in `[-1, 0]`, and non-negative gamma and vega for either
kind. -/
theorem greeks_bounds (p : Prims) (S K T r sigma : ℚ)
    (hcdf : ∀ x, 0 ≤ p.cdf x ∧ p.cdf x ≤ 1) (hpdf : ∀ x, 0 ≤ p.pdf x)
    (hsqrt : ∀ x, 0 < x → 0 < p.sqrt x)
    (hS : 0 < S) (hK : 0 < K) (hT : 0 < T) (hsig : 0 < sigma) :
    PF.inIcc (calculate_greeks p S K T r sigma ("call")).delta 0 1 ∧
    PF.inIcc (calculate_greeks p S K T r sigma ("put")).delta (-1) 0 ∧
    (∀ option_type, PF.isNonneg (calculate_greeks p S K T r sigma option_type).gamma) ∧
    (∀ option_type, PF.isNonneg (calculate_greeks p S K T r sigma option_type).vega) := by
  have hsq : 0 < p.sqrt T := hsqrt T hT
  refine ⟨?_, ?_, ?_, ?_⟩
  · obtain ⟨d, hdelta, hgamma, hvega⟩ :=
      calculate_greeks_shape p S K T r sigma ("call") hS hK hT hsig hsq
    rw [hdelta, if_pos rfl]
    refine ⟨round4 (p.cdf d), rfl, ?_, ?_⟩
    · have h0 : ((0 : ℤ) : ℚ) ≤ p.cdf d := by exact_mod_cast (hcdf d).1
      simpa using le_round4 _ 0 h0
    · have h1 : p.cdf d ≤ ((1 : ℤ) : ℚ) := by exact_mod_cast (hcdf d).2
      simpa using round4_le _ 1 h1
  · obtain ⟨d, hdelta, hgamma, hvega⟩ :=
      calculate_greeks_shape p S K T r sigma ("put") hS hK hT hsig hsq
    rw [hdelta, if_neg (by decide : ¬ ("put" : String) = ("call"))]
    refine ⟨round4 (p.cdf d - 1), rfl, ?_, ?_⟩
    · have h0 : ((-1 : ℤ) : ℚ) ≤ p.cdf d - 1 := by
        have := (hcdf d).1; push_cast; linarith
      simpa using le_round4 _ (-1) h0
    · have h1 : p.cdf d - 1 ≤ ((0 : ℤ) : ℚ) := by
        have := (hcdf d).2; push_cast; linarith
      simpa using round4_le _ 0 h1
  · intro option_type
    obtain ⟨d, hdelta, hgamma, hvega⟩ :=
      calculate_greeks_shape p S K T r sigma option_type hS hK hT hsig hsq
    rw [hgamma]
    refine ⟨round4 (p.pdf d / (S * sigma * p.sqrt T)), rfl, ?_⟩
    have h0 : ((0 : ℤ) : ℚ) ≤ p.pdf d / (S * sigma * p.sqrt T) := by
      push_cast
      exact div_nonneg (hpdf d) (le_of_lt (mul_pos (mul_pos hS hsig) hsq))
    simpa using le_round4 _ 0 h0
  · intro option_type
    obtain ⟨d, hdelta, hgamma, hvega⟩ :=
      calculate_greeks_shape p S K T r sigma option_type hS hK hT hsig hsq
    rw [hvega]
    refine ⟨round4 (S * p.pdf d * p.sqrt T / 100), rfl, ?_⟩
    have h0 : ((0 : ℤ) : ℚ) ≤ S * p.pdf d * p.sqrt T / 100 := by
      push_cast
      exact div_nonneg
        (mul_nonneg (mul_nonneg (le_of_lt hS) (hpdf d)) (le_of_lt hsq)) (by norm_num)
    simpa using le_round4 _ 0 h0

/-- Witness for C2 at a concrete valid input and concrete primitives
satisfying the analytic hypotheses. -/
theorem greeks_bounds_witness :
    PF.inIcc (calculate_greeks trivPrims 100 95 (1/2) (9/200) (3/10) ("call")).delta 0 1 ∧
    PF.inIcc (calculate_greeks trivPrims 100 95 (1/2) (9/200) (3/10) ("put")).delta (-1) 0 ∧
    (∀ option_type,
      PF.isNonneg (calculate_greeks trivPrims 100 95 (1/2) (9/200) (3/10) option_type).gamma) ∧
    (∀ option_type,
      PF.isNonneg (calculate_greeks trivPrims 100 95 (1/2) (9/200) (3/10) option_type).vega) :=
  greeks_bounds trivPrims 100 95 (1/2) (9/200) (3/10)
    (fun _ => ⟨by norm_num [trivPrims], by norm_num [trivPrims]⟩)
    (fun _ => by norm_num [trivPrims])
    (fun _ hx => by simpa [trivPrims] using hx)
    (by norm_num) (by norm_num) (by norm_num) (by norm_num)

/-- C3 (code behaviour at the failing input): at strike `-1` — an input
the specification says must be caught and mapped to the zero vector —
`np.log` receives the negative argument `spot/strike` and returns NaN
without raising, so the `except` branch never fires and the function
returns the all-NaN dictionary, which is not the zero vector. -/
theorem greeks_negative_strike_nan :
    calculate_greeks trivPrims 100 (-1) (1/2) (9/200) (3/10) ("call") = nanGreeks ∧
    nanGreeks ≠ zeroGreeks := by
  constructor
  · have hguard : ¬ ((1:ℚ)/2 ≤ 0 ∨ (3:ℚ)/10 ≤ 0) := by norm_num
    rw [calculate_greeks, if_neg hguard]
    norm_num [PF.div, PF.add, PF.sub, PF.mul, PF.neg, pfLog, pfSqrt, pfCdf, pfPdf, pfExp,
      pfRound4, nanGreeks]
  · simp [nanGreeks, zeroGreeks]

/-- C10: the three per-variant Greeks calculators agree on every input:
the `demo_dashboard.py` variant is textually identical to the
`stock_options_dashboard.py` one, and the `options_dashboard.py`
variant differs only by the placement of a negation inside the theta
numerator, which is semantically neutral. -/
theorem greeks_variants_equal (p : Prims) (S K T r sigma : ℚ) (option_type : String) :
    calculate_greeks_demo p S K T r sigma option_type =
      calculate_greeks p S K T r sigma option_type ∧
    calculate_greeks_od p S K T r sigma option_type =
      calculate_greeks p S K T r sigma option_type := by
  refine ⟨rfl, ?_⟩
  unfold calculate_greeks_od calculate_greeks
  split
  · rfl
  · simp only [PF.neg_mul_left]

/-!
Expiration selection (`src/stock_options_dashboard.py` lines 141–154
and `src/options_dashboard.py` lines 100–108, 131–134).  Calendar dates
are modelled as integer day numbers, the granularity at which both the
claim and the selection operate: `target_date = asOf + offset` and the
day difference `(exp_date - target_date).days` is then exactly
`exp - (asOf + offset)`.
-/

/-- One iteration of the inner loop of the selection in
`get_options_data`: the running state is `(closest_exp, min_diff)`
(`none` standing for the initial `closest_exp = None`,
`min_diff = inf`), updated when the current date's absolute day
difference is strictly below the minimum seen so far. -/
def closestStep (t : ℤ) (st : Option (ℤ × ℤ)) (e : ℤ) : Option (ℤ × ℤ) :=
  match st with
  | none => some (e, |e - t|)
  | some (c, m) => if |e - t| < m then some (e, |e - t|) else some (c, m)

/-- The inner loop of the selection in `get_options_data`
(`src/stock_options_dashboard.py` lines 143–151): scan the available
expirations, keeping the first one with strictly minimal absolute day
difference to the target. -/
def find_closest (avail : List ℤ) (t : ℤ) : Option ℤ :=
  (avail.foldl (closestStep t) none).map (fun x => x.1)

/-- Embedding of `get_options_data`'s expiration-selection loop
(`src/stock_options_dashboard.py` lines 141–154): for each target
offset in order, find the closest available expiration and append it
unless already selected. -/
def select_expirations (avail : List ℤ) (target_days : List ℤ) (asOf : ℤ) : List ℤ :=
  target_days.foldl (fun acc off =>
    match find_closest avail (asOf + off) with
    | some c => if c ∈ acc then acc else acc ++ [c]
    | none => acc) []

/-- Embedding of `OptionsAnalyzer.find_closest_expiration` from
`src/options_dashboard.py` lines 100–108: `min` over the available
dates keyed by absolute distance to the target (Python's `min` keeps
the first element attaining the minimum), `None` on an empty list. -/
def find_closest_expiration (avail : List ℤ) (t : ℤ) : Option ℤ :=
  avail.foldl (fun acc e =>
    match acc with
    | none => some e
    | some c => if |e - t| < |c - t| then some e else some c) none

/-- Selection as worded by the claim: the first element of `available`
(in its order) whose absolute day-difference to the target is minimal
over all of `available`. -/
def spec_closest (avail : List ℤ) (t : ℤ) : Option ℤ :=
  avail.find? (fun e => avail.all (fun e2 => decide (|e - t| ≤ |e2 - t|)))

/-- Selection algorithm as worded by the claim: for each offset in the
given order, choose the closest available date (ties to the first
encountered) and append it to the result only if not already present. -/
def spec_select (avail : List ℤ) (target_days : List ℤ) (asOf : ℤ) : List ℤ :=
  target_days.foldl (fun acc off =>
    match spec_closest avail (asOf + off) with
    | some c => if c ∈ acc then acc else acc ++ [c]
    | none => acc) []

/-- Champion of the strict-improvement scan, starting from `c`. -/
def best (t c : ℤ) : List ℤ → ℤ
  | [] => c
  | e :: l => if |e - t| < |c - t| then best t e l else best t c l

theorem foldl_closestStep (t : ℤ) (l : List ℤ) : ∀ c : ℤ,
    l.foldl (closestStep t) (some (c, |c - t|)) =
      some (best t c l, |best t c l - t|) := by
  induction l with
  | nil => intro c; rfl
  | cons e l ih =>
    intro c
    simp only [List.foldl_cons, closestStep, best]
    by_cases h : |e - t| < |c - t|
    · rw [if_pos h, if_pos h, ih e]
    · rw [if_neg h, if_neg h, ih c]

theorem find_closest_nil (t : ℤ) : find_closest [] t = none := rfl

theorem find_closest_cons (t : ℤ) (a : ℤ) (l : List ℤ) :
    find_closest (a :: l) t = some (best t a l) := by
  unfold find_closest
  rw [List.foldl_cons]
  show ((l.foldl (closestStep t) (some (a, |a - t|))).map (fun x => x.1)) = _
  rw [foldl_closestStep t l a]
  rfl

theorem best_le (t : ℤ) (l : List ℤ) : ∀ c : ℤ, |best t c l - t| ≤ |c - t| := by
  induction l with
  | nil => intro c; exact le_rfl
  | cons e l ih =>
    intro c
    unfold best
    by_cases h : |e - t| < |c - t|
    · rw [if_pos h]; exact le_trans (ih e) (le_of_lt h)
    · rw [if_neg h]; exact ih c

theorem best_min (t : ℤ) (l : List ℤ) : ∀ c : ℤ, ∀ y ∈ c :: l,
    |best t c l - t| ≤ |y - t| := by
  induction l with
  | nil =>
    intro c y hy
    rcases List.mem_singleton.mp hy with rfl
    exact le_rfl
  | cons e l ih =>
    intro c y hy
    unfold best
    by_cases h : |e - t| < |c - t|
    · rw [if_pos h]
      rcases List.mem_cons.mp hy with h1 | hy2
      · rw [h1]; exact le_trans (best_le t l e) (le_of_lt h)
      · exact ih e y hy2
    · rw [if_neg h]
      rcases List.mem_cons.mp hy with h1 | hy2
      · rw [h1]; exact best_le t l c
      · rcases List.mem_cons.mp hy2 with h2 | hy3
        · rw [h2]; exact le_trans (best_le t l c) (not_lt.mp h)
        · exact ih c y (List.mem_cons_of_mem c hy3)

theorem find?_congr_mem {α : Type} (l : List α) (p q : α → Bool)
    (h : ∀ x ∈ l, p x = q x) : l.find? p = l.find? q := by
  induction l with
  | nil => rfl
  | cons a l ih =>
    simp only [List.find?_cons]
    rw [h a (List.mem_cons_self a l)]
    cases q a
    · exact ih (fun x hx => h x (List.mem_cons_of_mem a hx))
    · rfl

theorem best_append (t : ℤ) (l : List ℤ) : ∀ c e : ℤ,
    best t c (l ++ [e]) = if |e - t| < |best t c l - t| then e else best t c l := by
  induction l with
  | nil => intro c e; rfl
  | cons a l ih =>
    intro c e
    show best t c (a :: (l ++ [e])) = _
    unfold best
    by_cases h : |a - t| < |c - t|
    · rw [if_pos h, if_pos h, ih a e]
    · rw [if_neg h, if_neg h, ih c e]

theorem best_mem (t : ℤ) (l : List ℤ) : ∀ c : ℤ, best t c l ∈ c :: l := by
  induction l with
  | nil => intro c; exact List.mem_singleton.mpr rfl
  | cons e l ih =>
    intro c
    unfold best
    by_cases h : |e - t| < |c - t|
    · rw [if_pos h]
      exact List.mem_cons_of_mem c (ih e)
    · rw [if_neg h]
      rcases List.mem_cons.mp (ih c) with h1 | hm
      · rw [h1]; exact List.mem_cons_self _ _
      · exact List.mem_cons_of_mem _ (List.mem_cons_of_mem _ hm)

theorem find?_best (t : ℤ) (l : List ℤ) : ∀ c : ℤ,
    (c :: l).find? (fun e => (c :: l).all (fun e2 => decide (|e - t| ≤ |e2 - t|))) =
      some (best t c l) := by
  induction l using List.reverseRecOn with
  | nil =>
    intro c
    simp [List.find?, best]
  | append_singleton l e ih =>
    intro c
    have hcons : c :: (l ++ [e]) = (c :: l) ++ [e] := rfl
    rw [hcons, best_append]
    by_cases h : |e - t| < |best t c l - t|
    · rw [if_pos h]
      have hnone : ((c :: l).find?
          (fun x => ((c :: l) ++ [e]).all (fun e2 => decide (|x - t| ≤ |e2 - t|)))) = none := by
        rw [List.find?_eq_none]
        intro x hx
        simp only [List.all_append, List.all_cons, List.all_nil, Bool.and_true,
          Bool.and_eq_true, decide_eq_true_eq]
        rintro ⟨-, hle⟩
        have hmin : |best t c l - t| ≤ |x - t| := best_min t l c x hx
        omega
      rw [List.find?_append, hnone, Option.none_or]
      have htrue : (((c :: l) ++ [e]).all (fun e2 => decide (|e - t| ≤ |e2 - t|))) = true := by
        rw [List.all_append]
        have h1 : ((c :: l).all (fun e2 => decide (|e - t| ≤ |e2 - t|))) = true := by
          rw [List.all_eq_true]
          intro x hx
          have := best_min t l c x hx
          simp only [decide_eq_true_eq]
          omega
        have h2 : (([e]).all (fun e2 => decide (|e - t| ≤ |e2 - t|))) = true := by simp
        rw [h1, h2, Bool.and_self]
      rw [List.find?_singleton, if_pos htrue]
    · rw [if_neg h]
      have hmineq : ∀ x ∈ c :: l,
          (((c :: l) ++ [e]).all (fun e2 => decide (|x - t| ≤ |e2 - t|))) =
            ((c :: l).all (fun e2 => decide (|x - t| ≤ |e2 - t|))) := by
        intro x hx
        rw [List.all_append]
        by_cases hax : ((c :: l).all (fun e2 => decide (|x - t| ≤ |e2 - t|))) = true
        · rw [hax, Bool.true_and]
          have hxmin : |x - t| ≤ |best t c l - t| := by
            have := List.all_eq_true.mp hax (best t c l) (best_mem t l c)
            simpa using this
          have hxe : |x - t| ≤ |e - t| := by omega
          simp [hxe]
        · have hax2 : ((c :: l).all (fun e2 => decide (|x - t| ≤ |e2 - t|))) = false := by
            revert hax
            cases ((c :: l).all (fun e2 => decide (|x - t| ≤ |e2 - t|))) <;> simp
          rw [hax2, Bool.false_and]
      rw [List.find?_append]
      rw [find?_congr_mem (c :: l) _ _ hmineq, ih c]
      rfl

theorem find_closest_eq_spec (avail : List ℤ) (t : ℤ) :
    find_closest avail t = spec_closest avail t := by
  cases avail with
  | nil => rfl
  | cons a l => rw [find_closest_cons, spec_closest, find?_best t l a]

theorem find_closest_expiration_eq (avail : List ℤ) (t : ℤ) :
    find_closest_expiration avail t = find_closest avail t := by
  cases avail with
  | nil => rfl
  | cons a l =>
    rw [find_closest_cons]
    unfold find_closest_expiration
    rw [List.foldl_cons]
    show (l.foldl (fun acc e =>
      match acc with
      | none => some e
      | some c => if |e - t| < |c - t| then some e else some c) (some a)) = _
    induction l generalizing a with
    | nil => rfl
    | cons e l ih =>
      rw [List.foldl_cons]
      show (l.foldl _ (if |e - t| < |a - t| then some e else some a)) = _
      unfold best
      by_cases h : |e - t| < |a - t|
      · rw [if_pos h, if_pos h]; exact ih e
      · rw [if_neg h, if_neg h]; exact ih a

/-- C4: the selection loop equals, on every input, the algorithm stated
by the claim (per offset in order, pick the available date minimizing
the absolute day difference, ties to the first encountered in
`available`'s order; append only if not already present), the
`options_dashboard.py` `min`-based variant computes the same closest
date, and an empty available set yields an empty result. -/
theorem select_expirations_follows_spec (avail target_days : List ℤ) (asOf : ℤ) :
    select_expirations avail target_days asOf = spec_select avail target_days asOf ∧
    (∀ t, find_closest_expiration avail t = spec_closest avail t) ∧
    select_expirations [] target_days asOf = [] := by
  refine ⟨?_, ?_, ?_⟩
  · unfold select_expirations spec_select
    simp only [find_closest_eq_spec]
  · intro t
    rw [find_closest_expiration_eq, find_closest_eq_spec]
  · unfold select_expirations
    induction target_days with
    | nil => rfl
    | cons d l ih => simp only [List.foldl_cons, find_closest_nil]; exact ih

example : select_expirations [59, 152, 243] [90, 120, 150] 0 = [59, 152] := by decide

example : find_closest_expiration [59, 152, 243] 120 = some 152 := by decide

/-!
Analysis cache (`src/stock_options_dashboard.py` lines 67–70, 113–121
and 238–240; `src/demo_dashboard.py` lines 52–55, 96–102).  The two
module dictionaries `data_cache` and `cache_timestamp` are modelled as
functions from key strings to optional values; wall-clock time is a
rational parameter.  The cached payload type is a parameter `α` (the
dictionaries hold arbitrary result objects).
-/

/-- The pair of dictionaries `self.data_cache` / `self.cache_timestamp`. -/
structure Cache (α : Type) where
  data_cache : String → Option α
  cache_timestamp : String → Option ℚ

/-- The `self.cache_duration = 300` constant (seconds). -/
def cache_duration : ℚ := 300

/-- Embedding of the cache key `f-string` of `get_options_data`
(`src/stock_options_dashboard.py` line 115, `src/demo_dashboard.py`
line 97): the ticker, an underscore, and the target day-offsets joined
with dashes in the order given. -/
def cacheKey (ticker : String) (target_days : List ℤ) : String :=
  ticker ++ ("_") ++ String.intercalate ("-") (target_days.map (fun d => toString d))

/-- Storing into both dictionaries under a key
(`src/stock_options_dashboard.py` lines 239–240). -/
def cachePut {α : Type} (c : Cache α) (k : String) (v : α) (now : ℚ) : Cache α :=
  ⟨fun k2 => if k2 = k then some v else c.data_cache k2,
   fun k2 => if k2 = k then some now else c.cache_timestamp k2⟩

/-- The cache-validity check of `get_options_data`
(`src/stock_options_dashboard.py` lines 118–121): a hit requires the
key in both dictionaries and age strictly below `cache_duration`. -/
def cacheCheck {α : Type} (c : Cache α) (k : String) (now : ℚ) : Option α :=
  match c.data_cache k, c.cache_timestamp k with
  | some v, some ts => if now - ts < cache_duration then some v else none
  | _, _ => none

/-- The caching skeleton of `get_options_data`: return the cached value
on a hit; otherwise run the fetch (abstracted as its outcome) and, on
success, store the result and its timestamp before returning it; a
failed fetch returns `None` and leaves the cache unchanged. -/
def get_options_data_cached {α : Type} (c : Cache α) (k : String) (now : ℚ)
    (fetch : Option α) : Option α × Cache α :=
  match cacheCheck c k now with
  | some v => (some v, c)
  | none =>
    match fetch with
    | some v => (some v, cachePut c k v now)
    | none => (none, c)

/-- The empty cache over payload type ℕ, for concrete evaluations. -/
def emptyCacheNat : Cache ℕ := ⟨fun _ => none, fun _ => none⟩

/-- C5: after a `put` of `v` at time `t0`, a `get` at any time with age
strictly below the 300-second ttl returns the stored entry and leaves
the cache untouched, while a `get` at age ≥ ttl is treated as a miss —
the fetch result `w` is returned and overwrites the entry — even though
the stored entry object is still present in `data_cache`. -/
theorem cache_ttl_behavior (α : Type) (c : Cache α) (k : String) (v w : α) (t0 now : ℚ) :
    (now - t0 < 300 →
      get_options_data_cached (cachePut c k v t0) k now (some w) =
        (some v, cachePut c k v t0)) ∧
    (300 ≤ now - t0 →
      (cachePut c k v t0).data_cache k = some v ∧
      get_options_data_cached (cachePut c k v t0) k now (some w) =
        (some w, cachePut (cachePut c k v t0) k w now)) := by
  constructor
  · intro h
    simp [get_options_data_cached, cacheCheck, cachePut, cache_duration, h]
  · intro h
    have h2 : ¬ now - t0 < cache_duration := by
      unfold cache_duration
      exact not_lt.mpr h
    constructor
    · simp [cachePut]
    · simp [get_options_data_cached, cacheCheck, cachePut, h2]

/-- Witness for C5: a put of value 1 at time 0 under key `AAPL`; a get
at time 100 hits and returns 1; a get at time 300 misses, returns the
fresh value 2 and overwrites, although the entry object is still there. -/
theorem cache_ttl_behavior_witness :
    get_options_data_cached (cachePut emptyCacheNat ("AAPL") 1 0) ("AAPL") 100 (some 2) =
      (some 1, cachePut emptyCacheNat ("AAPL") 1 0) ∧
    ((cachePut emptyCacheNat ("AAPL") 1 0).data_cache ("AAPL") = some 1 ∧
      get_options_data_cached (cachePut emptyCacheNat ("AAPL") 1 0) ("AAPL") 300 (some 2) =
        (some 2, cachePut (cachePut emptyCacheNat ("AAPL") 1 0) ("AAPL") 2 300)) :=
  ⟨(cache_ttl_behavior ℕ emptyCacheNat ("AAPL") 1 2 0 100).1 (by norm_num),
   (cache_ttl_behavior ℕ emptyCacheNat ("AAPL") 1 2 0 300).2 (by norm_num)⟩

/-- C6 counterexample: the cache key joins the target day-offsets in
the order given — it does not sort them — so the two permutations
`[90, 120, 150]` and `[150, 120, 90]` of the same offsets produce
different keys, contradicting the claim that permuted offset lists
share a key. -/
theorem cache_key_permutation_cex :
    cacheKey ("AAPL") [90, 120, 150] ≠ cacheKey ("AAPL") [150, 120, 90] := by decide

/-- C6 as amended: the key is a composite of the ticker and the target
day-offsets in the order given (their decimal strings joined with
dashes); two requests obtain the same key whenever their offset
sequences agree element-wise in order. -/
theorem cache_key_same_order (ticker : String) (ds1 ds2 : List ℤ)
    (h : ds1.map (fun d => toString d) = ds2.map (fun d => toString d)) :
    cacheKey ticker ds1 = cacheKey ticker ds2 := by
  unfold cacheKey
  rw [h]

/-- Witness for the amended C6 at equal concrete offset lists. -/
theorem cache_key_same_order_witness :
    cacheKey ("AAPL") [90, 120, 150] = cacheKey ("AAPL") [90, 120, 150] :=
  cache_key_same_order ("AAPL") [90, 120, 150] [90, 120, 150] rfl

/-!
Orchestration of `get_options_data`
(`src/stock_options_dashboard.py` lines 123–246).  The yfinance
provider is modelled as a record of the data it returns for one ticker;
a `none` chain models an exception while fetching that expiration
(caught and skipped by the `except … continue`).  Dates are integer day
numbers as in the selection model.
-/

/-- One raw contract row of the provider's chain (`option_chain.calls`
/ `.puts` rows): `impliedVolatility` is `none` when absent or NaN
(`pd.isna`), which the code coerces to 0. -/
structure ContractRow where
  strike : ℚ
  lastPrice : ℚ
  bid : ℚ
  ask : ℚ
  volume : ℤ
  openInterest : ℤ
  impliedVolatility : Option ℚ
deriving DecidableEq

/-- A provider chain for one expiration. -/
structure Chain where
  calls : List ContractRow
  puts : List ContractRow
deriving DecidableEq

/-- The provider-supplied data for one ticker: the `stock_info` price
fields, the 1-day-history close (`none` when the history is empty), the
available expirations, and the per-expiration chain (`none` models a
raised exception). -/
structure ProviderData where
  currentPrice : Option ℚ
  regularMarketPrice : Option ℚ
  histClose : Option ℚ
  expirations : List ℤ
  chain : ℤ → Option Chain

/-- An enriched contract dictionary as assembled in `get_options_data`
(`call_data` / `put_data`, lines 185–198). -/
structure EnrichedContract where
  strike : ℚ
  lastPrice : ℚ
  bid : ℚ
  ask : ℚ
  volume : ℤ
  openInterest : ℤ
  impliedVolatility : ℚ
  greeks : Greeks
deriving DecidableEq

/-- One entry of the snapshot's `expirations` mapping (insertion
order preserved). -/
structure ExpirationEntry where
  date : ℤ
  days_to_expiry : ℤ
  calls : List EnrichedContract
  puts : List EnrichedContract
deriving DecidableEq

/-- The per-ticker result dictionary of `get_options_data`. -/
structure Snapshot where
  ticker : String
  current_price : ℚ
  risk_free_rate : ℚ
  expirations : List ExpirationEntry

/-- Price resolution of `get_options_data`
(`src/stock_options_dashboard.py` lines 126–131): `currentPrice`, else
`regularMarketPrice`, else the literal default 0; if the result is 0,
fall back to the last 1-day-history close when the history is
non-empty.  There is no abort on a zero price. -/
def resolve_price (pd : ProviderData) : ℚ :=
  let p := pd.currentPrice.getD (pd.regularMarketPrice.getD 0)
  if p = 0 then pd.histClose.getD p else p

/-- Assembly of one enriched contract (iv coerced from missing/NaN to
0, then the Greeks computed at the resolved spot price). -/
def enrich (p : Prims) (price rate T : ℚ) (option_type : String) (row : ContractRow) :
    EnrichedContract :=
  let iv := row.impliedVolatility.getD 0
  { strike := row.strike
    lastPrice := row.lastPrice
    bid := row.bid
    ask := row.ask
    volume := row.volume
    openInterest := row.openInterest
    impliedVolatility := iv
    greeks := calculate_greeks p price row.strike T rate iv option_type }

/-- Embedding of the fetch path of `get_options_data`
(`src/stock_options_dashboard.py` lines 123–242, the cache layer being
`get_options_data_cached`): resolve the price, return `None` only when
the expiration list is empty, select target expirations, and build the
expirations mapping, skipping any expiration whose chain fetch fails. -/
def get_options_data_fetch (p : Prims) (pd : ProviderData) (ticker : String)
    (today : ℤ) (rate : ℚ) (target_days : List ℤ) : Option Snapshot :=
  let price := resolve_price pd
  if pd.expirations = [] then none
  else
    let sel := select_expirations pd.expirations target_days today
    some
      { ticker := ticker
        current_price := price
        risk_free_rate := rate
        expirations := sel.filterMap (fun e =>
          (pd.chain e).map (fun ch =>
            let days := e - today
            let T := (days : ℚ) / 365
            { date := e
              days_to_expiry := days
              calls := ch.calls.map (enrich p price rate T ("call"))
              puts := ch.puts.map (enrich p price rate T ("put")) })) }

/-- Provider data for a ticker whose price cannot be resolved: no
`currentPrice`, no `regularMarketPrice`, empty 1-day history — but a
listed option chain with one expiration carrying a single call. -/
def pdNoPrice : ProviderData :=
  { currentPrice := none
    regularMarketPrice := none
    histClose := none
    expirations := [100]
    chain := fun e => if e = 100 then
        some { calls := [{ strike := 50, lastPrice := 1, bid := 1, ask := 1, volume := 10,
                           openInterest := 10, impliedVolatility := some (3/10) }]
               puts := [] }
      else none }

/-- C7 (code behaviour at the failing input): for a ticker whose spot
price resolves to 0 (no price fields, empty history) but which has a
listed chain, `get_options_data` does not fail — it constructs and
returns a snapshot with `current_price = 0`, and the zero spot is
passed as the spot argument of the Greeks computation for the enriched
contract (the claim says no snapshot may be constructed and 0 may never
flow into Greeks computation).  The theorem asserts only which call the
stored Greeks come from, not their numeric value: at spot 0 the real
program's values pass through `np.log(0) = -inf`, which this model does
not track. -/
theorem zero_price_snapshot_constructed :
    (get_options_data_fetch trivPrims pdNoPrice ("XYZ") 0 (9/200) [90, 120, 150]).map
        (fun s => s.current_price) = some 0 ∧
    (get_options_data_fetch trivPrims pdNoPrice ("XYZ") 0 (9/200) [90, 120, 150]).map
        (fun s => s.expirations.map (fun g => g.calls.map (fun ct => ct.greeks))) =
      some [[calculate_greeks trivPrims 0 50 ((20 : ℚ) / 73) (9/200) (3/10) ("call")]] := by
  have hsel : select_expirations [100] [90, 120, 150] 0 = [100] := by decide
  constructor
  · simp [get_options_data_fetch, resolve_price, pdNoPrice]
  · simp only [get_options_data_fetch]
    norm_num [resolve_price, pdNoPrice, enrich, hsel, List.filterMap_cons,
      List.filterMap_nil]

/-!
Batch endpoint `get_options`
(`src/stock_options_dashboard.py` lines 982–1005): each requested
ticker is stripped and upper-cased, skipped when empty, and the
response dictionary gets one entry per ticker — the analyzer result on
success, an error dictionary when `get_options_data` returned `None`.
The response dictionary is modelled as a lookup function; the per-ticker
analysis is abstracted as its outcome `fetch`.
-/

/-- Python's `ticker.strip().upper()`, modelled on the character list:
drop ASCII whitespace from both ends, then upper-case. -/
def normalizeTicker (s : String) : String :=
  String.mk ((((s.data.dropWhile Char.isWhitespace).reverse.dropWhile
    Char.isWhitespace).reverse).map Char.toUpper)

/-- The per-ticker entry written into `results`
(`src/stock_options_dashboard.py` lines 996–1000): the snapshot on
success, otherwise the `Could not fetch data` error dictionary. -/
def batchEntry {α : Type} (fetch : String → Option α) (n : String) : Except String α :=
  match fetch n with
  | some v => Except.ok v
  | none => Except.error (("Could not fetch data for ") ++ n)

/-- One iteration of the `results`-building loop of `get_options`: skip
a ticker whose normalized name is empty, otherwise write that ticker's
entry under its normalized name. -/
def batchStep {α : Type} (fetch : String → Option α)
    (acc : String → Option (Except String α)) (t : String) :
    String → Option (Except String α) :=
  if normalizeTicker t = ("") then acc
  else fun k => if k = normalizeTicker t then some (batchEntry fetch (normalizeTicker t))
    else acc k

/-- Embedding of the `get_options` route body: reject an empty ticker
list with a top-level error; otherwise build the `results` dictionary
by iterating the tickers in order, skipping empty normalized names and
writing each ticker's own entry under its normalized name. -/
def get_options_batch {α : Type} (fetch : String → Option α) (tickers : List String) :
    Except String (String → Option (Except String α)) :=
  if tickers = [] then Except.error (("No tickers provided"))
  else Except.ok (tickers.foldl (batchStep fetch) (fun _ => none))

theorem get_options_batch_foldl {α : Type} (fetch : String → Option α) (n : String)
    (hn : n ≠ ("")) (l : List String) :
    ∀ init : String → Option (Except String α),
      (l.foldl (batchStep fetch) init) n =
      if (∃ t ∈ l, normalizeTicker t = n) then some (batchEntry fetch n) else init n := by
  induction l with
  | nil => intro init; simp
  | cons t l ih =>
    intro init
    rw [List.foldl_cons, ih]
    by_cases hex : ∃ t2 ∈ l, normalizeTicker t2 = n
    · rw [if_pos hex, if_pos (by
        obtain ⟨t2, ht2, hnt2⟩ := hex
        exact ⟨t2, List.mem_cons_of_mem t ht2, hnt2⟩)]
    · rw [if_neg hex]
      by_cases htn : normalizeTicker t = n
      · have hcond : ∃ t2 ∈ t :: l, normalizeTicker t2 = n :=
          ⟨t, List.mem_cons_self t l, htn⟩
        rw [if_pos hcond]
        unfold batchStep
        rw [if_neg (by rw [htn]; exact hn)]
        show (if n = normalizeTicker t then some (batchEntry fetch (normalizeTicker t))
          else init n) = some (batchEntry fetch n)
        rw [if_pos htn.symm, htn]
      · have hcond : ¬ ∃ t2 ∈ t :: l, normalizeTicker t2 = n := by
          rintro ⟨t2, ht2, hnt2⟩
          rcases List.mem_cons.mp ht2 with h1 | h2
          · rw [h1] at hnt2; exact htn hnt2
          · exact hex ⟨t2, h2, hnt2⟩
        rw [if_neg hcond]
        unfold batchStep
        by_cases hemp : normalizeTicker t = ("")
        · rw [if_pos hemp]
        · rw [if_neg hemp]
          show (if n = normalizeTicker t then some (batchEntry fetch (normalizeTicker t))
            else init n) = init n
          rw [if_neg (fun h => htn h.symm)]

/-- Supporting lemma for C8, about the dict-response batch routes
(`src/stock_options_dashboard.py` lines 982–1005 and the identical
`src/demo_dashboard.py` route): a batch request with a non-empty ticker
list yields an `ok` response dictionary containing, for every requested
ticker whose normalized name is non-empty, an entry under that name
holding the ticker's own snapshot or error — determined solely by that
ticker's own fetch outcome, so no other ticker's failure can suppress
it.  The claim itself also cites the `options_dashboard.py` route,
which violates it (see `get_options_flat_drops_failed`). -/
theorem batch_response_per_ticker {α : Type} (fetch : String → Option α)
    (tickers : List String) (t : String)
    (hne : tickers ≠ []) (hmem : t ∈ tickers) (hnst : normalizeTicker t ≠ ("")) :
    ∃ r, get_options_batch fetch tickers = Except.ok r ∧
      r (normalizeTicker t) = some (batchEntry fetch (normalizeTicker t)) := by
  unfold get_options_batch
  rw [if_neg hne]
  refine ⟨_, rfl, ?_⟩
  rw [get_options_batch_foldl fetch (normalizeTicker t) hnst tickers]
  rw [if_pos ⟨t, hmem, rfl⟩]

/-- Fetch outcome used by the C8 witness: data exists for `AAPL` only. -/
def demoFetch : String → Option ℕ := fun s => if s = ("AAPL") then some 1 else none

/-- Concrete instance of `batch_response_per_ticker` (dict-response
routes): a batch of `AAPL` (succeeds) and `msft ` (needs
normalization and fails): both tickers get their own entry — the second
ticker's failure is reported in its entry and does not suppress the
first ticker's snapshot. -/
theorem batch_response_per_ticker_witness :
    (∃ r, get_options_batch demoFetch [("AAPL"), ("msft ")] = Except.ok r ∧
      r ("AAPL") = some (Except.ok 1)) ∧
    (∃ r, get_options_batch demoFetch [("AAPL"), ("msft ")] = Except.ok r ∧
      r ("MSFT") = some (Except.error (("Could not fetch data for MSFT")))) := by
  constructor
  · obtain ⟨r, h1, h2⟩ := batch_response_per_ticker demoFetch [("AAPL"), ("msft ")]
      ("AAPL") (by decide) (by decide) (by decide)
    refine ⟨r, h1, ?_⟩
    rw [show normalizeTicker ("AAPL") = ("AAPL") from by decide] at h2
    rw [h2]
    rfl
  · obtain ⟨r, h1, h2⟩ := batch_response_per_ticker demoFetch [("AAPL"), ("msft ")]
      ("msft ") (by decide) (by decide) (by decide)
    refine ⟨r, h1, ?_⟩
    rw [show normalizeTicker ("msft ") = ("MSFT") from by decide] at h2
    rw [h2]
    rfl

/-- A raw row of `options_dashboard.py`'s flat response, modelled as
the ticker it carries (every row dict stores its `'ticker'` field)
paired with the rest of its payload. -/
def FlatRow (α : Type) : Type := String × α

/-- Embedding of the `get_options` route of `src/options_dashboard.py`
(lines 944–967), after the comma-split of the raw input: normalize the
tickers (strip, drop empties, upper-case), reject an empty list, then
accumulate a single flat row list — a ticker whose analysis returns
`None` (or an empty row list, both falsy under `if options_data:`) is
only logged and skipped, contributing nothing to the response. -/
def get_options_flat {α : Type} (fetch : String → Option (List (FlatRow α)))
    (tickers_input : List String) : Except String (List (FlatRow α)) :=
  let tickers := (tickers_input.filter
    (fun t => decide (normalizeTicker t ≠ ("")))).map normalizeTicker
  if tickers = [] then Except.error (("No valid tickers provided"))
  else Except.ok (tickers.foldl (fun acc t =>
    match fetch t with
    | some rows => if rows.isEmpty then acc else acc ++ rows
    | none => acc) [])

/-- Fetch outcome used for the C8 failing input: row data exists for
`AAPL`; analysis of `FAIL` returns `None`. -/
def demoFlatFetch : String → Option (List (FlatRow ℕ)) :=
  fun s => if s = ("AAPL") then some [(("AAPL"), 1)] else none

/-- C8 (code behaviour at the failing input): in the
`options_dashboard.py` batch route, the response to the batch
`[AAPL, FAIL]` — where analysis of `FAIL` fails — is a flat row list
whose rows all belong to `AAPL`: the failed ticker has no entry and no
error description anywhere in the response, contradicting the claim
that every requested ticker carries either a snapshot or an error. -/
theorem get_options_flat_drops_failed :
    (get_options_flat demoFlatFetch [("AAPL"), ("FAIL")]).map
      (fun rows => rows.map (fun r => r.1)) = Except.ok [("AAPL")] := by
  rfl

/-!
Filter engine (`applyFilters` / `filterOption` in the template script
of `src/stock_options_dashboard.py`, lines 880–966): a per-contract
predicate over Greek ranges, volume/open-interest minima and an
at-the-money toggle, and a per-expiration pass that keeps a group only
when a contract survives in its calls or puts.  Filtering builds a new
object and never mutates its input.
-/

/-- The `filters` object read from the form controls: numeric Greek
bounds, integer volume/open-interest minima, `atmFilter === 'atm'` as a
Boolean, and `daysFilter` (`none` for `'all'`). -/
structure JsFilters where
  minDelta : ℚ
  maxDelta : ℚ
  minGamma : ℚ
  maxGamma : ℚ
  minTheta : ℚ
  maxTheta : ℚ
  minVega : ℚ
  maxVega : ℚ
  minVolume : ℤ
  minOpenInterest : ℤ
  atmFilter : Bool
  daysFilter : Option ℤ
deriving DecidableEq

/-- A contract row as seen by the client script; `volume` and
`openInterest` may be null, coerced by `(x || 0)`. -/
structure JsOption where
  strike : ℚ
  delta : ℚ
  gamma : ℚ
  theta : ℚ
  vega : ℚ
  volume : Option ℤ
  openInterest : Option ℤ
deriving DecidableEq

/-- One expiration group of the snapshot. -/
structure ExpData where
  days_to_expiry : ℤ
  calls : List JsOption
  puts : List JsOption
deriving DecidableEq

/-- Embedding of `filterOption` (`src/stock_options_dashboard.py`
lines 945–966): ATM proximity within 10% of spot when the toggle is
on, then each Greek against its `[min, max]` bound, then the volume and
open-interest minima. -/
def filterOption (o : JsOption) (f : JsFilters) (currentPrice : ℚ) : Bool :=
  if f.atmFilter ∧ currentPrice * (1/10) < |o.strike - currentPrice| then false
  else if o.delta < f.minDelta ∨ f.maxDelta < o.delta then false
  else if o.gamma < f.minGamma ∨ f.maxGamma < o.gamma then false
  else if o.theta < f.minTheta ∨ f.maxTheta < o.theta then false
  else if o.vega < f.minVega ∨ f.maxVega < o.vega then false
  else if o.volume.getD 0 < f.minVolume then false
  else if o.openInterest.getD 0 < f.minOpenInterest then false
  else true

/-- One iteration of the expiration loop of `applyFilters`
(`src/stock_options_dashboard.py` lines 921–939): skip the group when
the days filter excludes it; otherwise filter calls and puts and keep
the group only when at least one contract survives. -/
def applyStep (f : JsFilters) (currentPrice : ℚ)
    (acc : List (String × ExpData)) (de : String × ExpData) : List (String × ExpData) :=
  if (match f.daysFilter with
      | some nd => decide (nd < de.2.days_to_expiry)
      | none => false) then acc
  else
    let fc := de.2.calls.filter (fun o => filterOption o f currentPrice)
    let fp := de.2.puts.filter (fun o => filterOption o f currentPrice)
    if 0 < fc.length ∨ 0 < fp.length then
      acc ++ [(de.1, { days_to_expiry := de.2.days_to_expiry, calls := fc, puts := fp })]
    else acc

/-- Embedding of the per-ticker body of `applyFilters`: rebuild the
expirations mapping in order from the surviving groups (the input is
never mutated). -/
def applyFiltersTicker (f : JsFilters) (currentPrice : ℚ)
    (exps : List (String × ExpData)) : List (String × ExpData) :=
  exps.foldl (applyStep f currentPrice) []

theorem mem_foldl_applyStep (f : JsFilters) (price : ℚ) (l : List (String × ExpData)) :
    ∀ (acc : List (String × ExpData)) (x : String × ExpData),
      x ∈ l.foldl (applyStep f price) acc →
      x ∈ acc ∨ ∃ de ∈ l, x.1 = de.1 ∧
        (de.2.calls.filter (fun o => filterOption o f price) ≠ [] ∨
         de.2.puts.filter (fun o => filterOption o f price) ≠ []) := by
  induction l with
  | nil => intro acc x hx; exact Or.inl hx
  | cons de l ih =>
    intro acc x hx
    rw [List.foldl_cons] at hx
    rcases ih (applyStep f price acc de) x hx with hstep | ⟨de2, hde2, hfst, hsurv⟩
    · unfold applyStep at hstep
      split at hstep
      · exact Or.inl hstep
      · dsimp only at hstep
        split at hstep
        · rcases List.mem_append.mp hstep with hacc | hone
          · exact Or.inl hacc
          · rcases List.mem_singleton.mp hone with rfl
            refine Or.inr ⟨de, List.mem_cons_self de l, rfl, ?_⟩
            rename_i hc
            rcases hc with h1 | h2
            · exact Or.inl (List.length_pos.mp h1)
            · exact Or.inr (List.length_pos.mp h2)
        · exact Or.inl hstep
    · exact Or.inr ⟨de2, List.mem_cons_of_mem de hde2, hfst, hsurv⟩

theorem snd_unique_of_nodup_fst {β : Type} (l : List (String × β))
    (h : (l.map Prod.fst).Nodup) :
    ∀ p q, p ∈ l → q ∈ l → p.1 = q.1 → p = q := by
  induction l with
  | nil => intro p q hp; exact absurd hp (List.not_mem_nil p)
  | cons a l ih =>
    intro p q hp hq heq
    rw [List.map_cons, List.nodup_cons] at h
    rcases List.mem_cons.mp hp with h1 | h2 <;> rcases List.mem_cons.mp hq with h3 | h4
    · rw [h1, h3]
    · exfalso
      apply h.1
      have ha : a.1 = q.1 := by rw [← h1]; exact heq
      rw [ha]
      exact List.mem_map_of_mem Prod.fst h4
    · exfalso
      apply h.1
      have ha : a.1 = p.1 := by rw [← h3]; exact heq.symm
      rw [ha]
      exact List.mem_map_of_mem Prod.fst h2
    · exact ih h.2 p q h2 h4 heq

theorem lookup_eq_none_of_keys {β : Type} (d : String) (l : List (String × β))
    (h : ∀ x ∈ l, x.1 ≠ d) : List.lookup d l = none := by
  induction l with
  | nil => rfl
  | cons a l ih =>
    rw [List.lookup_cons]
    have had : (d == a.1) = false := by
      have := h a (List.mem_cons_self a l)
      simp only [beq_eq_false_iff_ne, ne_eq]
      exact fun he => this he.symm
    rw [had]
    exact ih (fun x hx => h x (List.mem_cons_of_mem a hx))

/-- C9: whenever an expiration group's filtered call list and filtered
put list are both empty, that expiration is entirely absent from the
filtered result's mapping (filtering is a pure function of its
arguments, so the cached snapshot is untouched). -/
theorem filter_drops_empty_groups (f : JsFilters) (price : ℚ)
    (exps : List (String × ExpData)) (d : String) (e : ExpData)
    (hmem : (d, e) ∈ exps)
    (hnodup : (exps.map Prod.fst).Nodup)
    (hc : e.calls.filter (fun o => filterOption o f price) = [])
    (hp : e.puts.filter (fun o => filterOption o f price) = []) :
    List.lookup d (applyFiltersTicker f price exps) = none := by
  apply lookup_eq_none_of_keys
  intro x hx hxd
  rcases mem_foldl_applyStep f price exps [] x hx with hnil | ⟨de, hde, hfst, hsurv⟩
  · exact absurd hnil (List.not_mem_nil x)
  · have hde2 : de = (d, e) := by
      apply snd_unique_of_nodup_fst exps hnodup de (d, e) hde hmem
      rw [← hfst, hxd]
    rw [hde2] at hsurv
    rcases hsurv with h1 | h2
    · exact h1 hc
    · exact h2 hp

/-- The claim's end-to-end scenario: a single expiration holding one
call at strike equal to spot with volume 0 and no puts. -/
def c9exp : ExpData :=
  { days_to_expiry := 90
    calls := [{ strike := 100, delta := 1/2, gamma := 1/100, theta := -(1/20), vega := 1/4,
                volume := some 0, openInterest := some 10 }]
    puts := [] }

/-- The claim's filter specification: `minVolume = 50`, all other
bounds permissive. -/
def c9filters : JsFilters :=
  { minDelta := -1, maxDelta := 1, minGamma := 0, maxGamma := 5
    minTheta := -10, maxTheta := 10, minVega := 0, maxVega := 100
    minVolume := 50, minOpenInterest := 0, atmFilter := false, daysFilter := none }

/-- Witness for C9: under `minVolume = 50` the lone volume-0 call is
filtered out, the put list is already empty, and the expiration group
is absent from the filtered mapping. -/
theorem filter_drops_empty_groups_witness :
    List.lookup ("2024-06-01")
      (applyFiltersTicker c9filters 100 [(("2024-06-01"), c9exp)]) = none :=
  filter_drops_empty_groups c9filters 100 [(("2024-06-01"), c9exp)] ("2024-06-01") c9exp
    (List.mem_singleton.mpr rfl) (by simp)
    (by norm_num [c9exp, filterOption, c9filters])
    (by norm_num [c9exp, filterOption, c9filters])

end OptionsDash
